import Mathlib

/-!
# Verification of the pod-search transcript chunking and embedding core

This file gives a shallow embedding of `api/index.py` and proves or refutes
the specified properties of its two components: the greedy transcript
chunker `get_chunks` and the embedding wrapper `generate_embeddings`,
together with the `get_video_embeddings` endpoint glue.

Timestamps are only carried along by the chunker, never inspected, so the
embedding is polymorphic in the timestamp type; concrete instances use `ℚ`
(for the source's floats) or `ℤ`.
-/

/-- One transcript segment, the dictionary `{'text': ..., 'start': ...}`
consumed by `get_chunks` (`segment['text']`, `segment['start']`). -/
structure Segment (α : Type) where
  text : String
  start : α
deriving DecidableEq, Repr

/-- Python's `c.isspace()` class used by `str.strip()`; the source only ever
strips the ASCII space it inserted itself, modelled with `Char.isWhitespace`. -/
def isWS (c : Char) : Bool := c.isWhitespace

/-- `str.strip()` on the underlying character list: drop whitespace from both
ends. -/
def stripL (l : List Char) : List Char :=
  ((l.dropWhile isWS).reverse.dropWhile isWS).reverse

/-- Python's `str.strip()`. -/
def pyStrip (s : String) : String := ⟨stripL s.data⟩

/-- The mutable loop state of `get_chunks`: the lists `chunks` and
`chunk_timestamps` built so far, and the accumulators `current_chunk`,
`current_timestamps`. -/
structure ChunkState (α : Type) where
  chunks : List String
  chunk_timestamps : List (List α)
  current_chunk : String
  current_timestamps : List α
deriving DecidableEq, Repr

/-- One iteration of the `for text, timestamp in zip(texts, timestamps)`
loop of `get_chunks`:
if `len(current_chunk) + len(text) + 1 <= max_chunk_length` the text is
appended to the accumulator preceded by a space (`current_chunk += ' ' + text`)
and the timestamp recorded; otherwise the stripped accumulator and its
timestamp list are flushed and the accumulators restart from this segment. -/
def chunkStep (max_chunk_length : ℤ) (st : ChunkState α) (seg : Segment α) :
    ChunkState α :=
  if (st.current_chunk.length + seg.text.length + 1 : ℤ) ≤ max_chunk_length then
    { st with
      current_chunk := st.current_chunk ++ " " ++ seg.text
      current_timestamps := st.current_timestamps ++ [seg.start] }
  else
    { chunks := st.chunks ++ [pyStrip st.current_chunk]
      chunk_timestamps := st.chunk_timestamps ++ [st.current_timestamps]
      current_chunk := seg.text
      current_timestamps := [seg.start] }

/-- The initial state: `chunks = []`, `chunk_timestamps = []`,
`current_chunk = ''`, `current_timestamps = []`. -/
def initState : ChunkState α := ⟨[], [], "", []⟩

/-- The whole loop of `get_chunks`, as a left fold over the segments (the
source zips the projected `texts` and `timestamps` lists, which traverses the
segments in order). -/
def chunkLoop (max_chunk_length : ℤ) (segs : List (Segment α))
    (st : ChunkState α) : ChunkState α :=
  segs.foldl (chunkStep max_chunk_length) st

/-- `get_chunks(transcript_list, max_chunk_length)`: run the loop, then
`if current_chunk:` append the final stripped accumulator, and return
`(chunks, chunk_timestamps)`. -/
def get_chunks (transcript_list : List (Segment α)) (max_chunk_length : ℤ) :
    List String × List (List α) :=
  let st := chunkLoop max_chunk_length transcript_list initState
  if st.current_chunk ≠ "" then
    (st.chunks ++ [pyStrip st.current_chunk],
     st.chunk_timestamps ++ [st.current_timestamps])
  else
    (st.chunks, st.chunk_timestamps)

example :
    get_chunks [⟨"Hello", (0 : ℚ)⟩, ⟨"world", 1⟩, ⟨"this is a test", 2⟩] 11
      = (["Hello", "world", "this is a test"], [[0], [1], [2]]) := by decide

example :
    get_chunks [⟨"ab", (0 : ℤ)⟩, ⟨"cd", 1⟩] 4 = (["ab", "cd"], [[0], [1]]) := by
  decide

example :
    get_chunks [⟨"abcd", (5 : ℤ)⟩, ⟨"", 5⟩] 3 = (["", "abcd"], [[], [5]]) := by
  decide

example :
    get_chunks [⟨"a ", (0 : ℤ)⟩, ⟨"b", 1⟩] 4 = (["a", "b"], [[0], [1]]) := by
  decide

example :
    get_chunks [⟨"a", (0 : ℤ)⟩, ⟨"b", 1⟩] 4 = (["a b"], [[0, 1]]) := by decide

/-! ## Provenance: which segments were folded into which chunk

`get_chunks` never inspects the timestamps it carries, so running it with each
segment's timestamp replaced by the whole segment records, per chunk, exactly
the segments folded into it.  The naturality lemma below makes the two runs
agree. -/

/-- Map a function over every timestamp held in a chunker state. -/
def mapState (f : α → β) (st : ChunkState α) : ChunkState β :=
  ⟨st.chunks, st.chunk_timestamps.map (List.map f),
   st.current_chunk, st.current_timestamps.map f⟩

lemma chunkStep_map (f : α → β) (m : ℤ) (st : ChunkState α) (seg : Segment α) :
    chunkStep m (mapState f st) ⟨seg.text, f seg.start⟩
      = mapState f (chunkStep m st seg) := by
  unfold chunkStep mapState
  split <;> simp_all

lemma chunkLoop_map (f : α → β) (m : ℤ) (segs : List (Segment α))
    (st : ChunkState α) :
    chunkLoop m (segs.map fun s => ⟨s.text, f s.start⟩) (mapState f st)
      = mapState f (chunkLoop m segs st) := by
  induction segs generalizing st with
  | nil => rfl
  | cons a l ih =>
    simp only [List.map_cons, chunkLoop, List.foldl_cons]
    rw [chunkStep_map]
    exact ih (chunkStep m st a)

/-- `get_chunks` is natural in the timestamp type: replacing every timestamp
by its image under `f` leaves the chunks unchanged and maps every timestamp
group elementwise. -/
lemma get_chunks_natural (f : α → β) (segs : List (Segment α)) (m : ℤ) :
    get_chunks (segs.map fun s => ⟨s.text, f s.start⟩) m
      = ((get_chunks segs m).1, (get_chunks segs m).2.map (List.map f)) := by
  unfold get_chunks
  have h0 : (initState : ChunkState β) = mapState f (initState : ChunkState α) := rfl
  rw [h0, chunkLoop_map]
  set st := chunkLoop m segs initState with hst
  by_cases h : st.current_chunk = "" <;> simp [mapState, h]

/-- Tag each segment's timestamp with the segment itself. -/
def tagStart (s : Segment α) : Segment (Segment α) := ⟨s.text, s⟩

/-- For each chunk, the list of segments folded into it, in order: the
timestamp groups of a run of `get_chunks` that carries whole segments as
timestamps. -/
def chunkSegGroups (segs : List (Segment α)) (m : ℤ) :
    List (List (Segment α)) :=
  (get_chunks (segs.map tagStart) m).2

lemma map_tag_back (segs : List (Segment α)) :
    (segs.map tagStart).map
        (fun s => (⟨s.text, Segment.start s.start⟩ : Segment α)) = segs := by
  rw [List.map_map]
  exact List.map_id segs

lemma get_chunks_tag (segs : List (Segment α)) (m : ℤ) :
    get_chunks segs m
      = ((get_chunks (segs.map tagStart) m).1,
         (chunkSegGroups segs m).map (List.map Segment.start)) := by
  have h := get_chunks_natural (Segment.start) (segs.map tagStart) m
  rw [map_tag_back] at h
  exact h

/-- The chunk strings of the tagged run agree with the real run. -/
lemma get_chunks_fst_tag (segs : List (Segment α)) (m : ℤ) :
    (get_chunks (segs.map tagStart) m).1 = (get_chunks segs m).1 := by
  rw [get_chunks_tag segs m]

/-- Every returned timestamp group is the start-time image of the
corresponding segment group. -/
lemma get_chunks_snd_tag (segs : List (Segment α)) (m : ℤ) :
    (get_chunks segs m).2 = (chunkSegGroups segs m).map (List.map Segment.start) := by
  rw [get_chunks_tag segs m]

/-! ## Structural invariants of the loop -/

lemma chunkStep_extend (m : ℤ) (st : ChunkState α) (seg : Segment α) :
    ∃ v w, (chunkStep m st seg).chunks = st.chunks ++ v ∧
      (chunkStep m st seg).chunk_timestamps = st.chunk_timestamps ++ w := by
  unfold chunkStep
  split
  · exact ⟨[], [], by simp, by simp⟩
  · exact ⟨[pyStrip st.current_chunk], [st.current_timestamps], rfl, rfl⟩

/-- The loop only ever appends to `chunks` and `chunk_timestamps`. -/
lemma chunkLoop_extend (m : ℤ) (segs : List (Segment α)) (st : ChunkState α) :
    ∃ v w, (chunkLoop m segs st).chunks = st.chunks ++ v ∧
      (chunkLoop m segs st).chunk_timestamps = st.chunk_timestamps ++ w := by
  induction segs generalizing st with
  | nil => exact ⟨[], [], by simp [chunkLoop], by simp [chunkLoop]⟩
  | cons a l ih =>
    obtain ⟨v, w, hv, hw⟩ := ih (chunkStep m st a)
    obtain ⟨v', w', hv', hw'⟩ := chunkStep_extend m st a
    refine ⟨v' ++ v, w' ++ w, ?_, ?_⟩
    · rw [show chunkLoop m (a :: l) st = chunkLoop m l (chunkStep m st a) from rfl,
        hv, hv', List.append_assoc]
    · rw [show chunkLoop m (a :: l) st = chunkLoop m l (chunkStep m st a) from rfl,
        hw, hw', List.append_assoc]

lemma chunkStep_lengths (m : ℤ) (st : ChunkState α) (seg : Segment α)
    (h : st.chunks.length = st.chunk_timestamps.length) :
    (chunkStep m st seg).chunks.length
      = (chunkStep m st seg).chunk_timestamps.length := by
  unfold chunkStep
  split <;> simp [h]

lemma chunkLoop_lengths (m : ℤ) (segs : List (Segment α)) (st : ChunkState α)
    (h : st.chunks.length = st.chunk_timestamps.length) :
    (chunkLoop m segs st).chunks.length
      = (chunkLoop m segs st).chunk_timestamps.length := by
  induction segs generalizing st with
  | nil => exact h
  | cons a l ih => exact ih (chunkStep m st a) (chunkStep_lengths m st a h)

/-- As many chunks as timestamp groups are returned. -/
lemma get_chunks_lengths (segs : List (Segment α)) (m : ℤ) :
    (get_chunks segs m).1.length = (get_chunks segs m).2.length := by
  have h := chunkLoop_lengths m segs initState rfl
  by_cases hc : (chunkLoop m segs initState).current_chunk = "" <;>
    simp [get_chunks, hc, h]

lemma chunkStep_join (m : ℤ) (st : ChunkState α) (seg : Segment α) :
    (chunkStep m st seg).chunk_timestamps.flatten
        ++ (chunkStep m st seg).current_timestamps
      = st.chunk_timestamps.flatten ++ st.current_timestamps ++ [seg.start] := by
  unfold chunkStep
  split <;> simp

/-- No timestamp is lost during the loop: the flushed groups together with
the pending accumulator always hold exactly the start times processed so
far, in order. -/
lemma chunkLoop_join (m : ℤ) (segs : List (Segment α)) (st : ChunkState α) :
    (chunkLoop m segs st).chunk_timestamps.flatten
        ++ (chunkLoop m segs st).current_timestamps
      = st.chunk_timestamps.flatten ++ st.current_timestamps
          ++ segs.map Segment.start := by
  induction segs generalizing st with
  | nil => simp [chunkLoop]
  | cons a l ih =>
    rw [show chunkLoop m (a :: l) st = chunkLoop m l (chunkStep m st a) from rfl,
      ih (chunkStep m st a), chunkStep_join]
    simp

/-! ## The embedder and the endpoint glue -/

/-- `dimensions = 1024`, the truncation dimension the model is loaded with. -/
def dimensions : ℕ := 1024

/-- Modelled from the spec: `model.encode(texts, convert_to_tensor=True)` —
the SentenceTransformer model is an external library absent from the source;
per the Embedder contract it returns one vector per input string, in input
order, so a model is a function from a string to its vector and a batch call
maps it. -/
def encode (model : String → List ℚ) (texts : List String) : List (List ℚ) :=
  texts.map model

/-- `generate_embeddings(texts, model)`: just the batch `encode` call. -/
def generate_embeddings (texts : List String) (model : String → List ℚ) :
    List (List ℚ) :=
  encode model texts

/-- A well-formed model produces vectors of exactly `dimensions` components
(the `truncate_dim=dimensions` configuration of the loaded model). -/
def goodModel (model : String → List ℚ) : Prop :=
  ∀ s, (model s).length = dimensions

/-- The comprehension `[timestamps[0] for timestamps in chunk_timestamps]`:
the head of every group, raising `IndexError` (modelled as `none`) when some
group is empty. -/
def headsOf : List (List α) → Option (List α)
  | [] => some []
  | [] :: _ => none
  | (a :: _) :: gs => (headsOf gs).map (fun l => a :: l)

lemma headsOf_length :
    ∀ {gs : List (List α)} {r : List α}, headsOf gs = some r →
      r.length = gs.length := by
  intro gs
  induction gs with
  | nil => intro r h; simp [headsOf] at h; simp [← h]
  | cons g gs ih =>
    intro r h
    match g with
    | [] => simp [headsOf] at h
    | a :: g' =>
      simp only [headsOf, Option.map_eq_some'] at h
      obtain ⟨r', hr', rfl⟩ := h
      simp [ih hr']

/-- The `/api/py/get_video_embeddings` endpoint, given the externally
retrieved transcript: chunk with the default `max_chunk_length = 500`, embed
the chunks, and return chunks, embeddings and the representative start
timestamps `timestamps[0]` of every group. -/
def api_get_video_embeddings (transcript_list : List (Segment α))
    (model : String → List ℚ) :
    Option (List String × List (List ℚ) × List α) :=
  let r := get_chunks transcript_list 500
  let embeddings_list := generate_embeddings r.1 model
  match headsOf r.2 with
  | some reps => some (r.1, embeddings_list, reps)
  | none => none

/-- The `/api/py/get_query_embedding` endpoint: embed the single query. -/
def api_get_query_embedding (query : String) (model : String → List ℚ) :
    Option (String × List ℚ) :=
  match generate_embeddings [query] model with
  | e :: _ => some (query, e)
  | [] => none

/-! ## Claims about concrete examples (C1, C8) -/

/-- C1 (counterexample): on segments
`[("Hello", 0.0), ("world", 1.0), ("this is a test", 2.0)]` with
`max_chunk_length = 11` the code does not return the chunks claimed by the
spec: the accumulator is seeded as `' ' + 'Hello'` (length 6), so `"world"`
no longer fits within 11. -/
theorem c1_counterexample :
    (get_chunks [⟨"Hello", (0 : ℚ)⟩, ⟨"world", 1⟩, ⟨"this is a test", 2⟩]
        11).1
      ≠ ["Hello world", "this is a test"] := by decide

/-- C1 (amended): on segments
`[("Hello", 0.0), ("world", 1.0), ("this is a test", 2.0)]` with
`max_chunk_length = 11`, `get_chunks` returns the chunks
`["Hello", "world", "this is a test"]` with representative timestamps
`[0.0, 1.0, 2.0]`, because the leading separator space counts toward the
length check. -/
theorem c1_amended_example :
    get_chunks [⟨"Hello", (0 : ℚ)⟩, ⟨"world", 1⟩, ⟨"this is a test", 2⟩] 11
      = (["Hello", "world", "this is a test"], [[0], [1], [2]])
    ∧ headsOf
        (get_chunks [⟨"Hello", (0 : ℚ)⟩, ⟨"world", 1⟩, ⟨"this is a test", 2⟩]
          11).2
      = some [0, 1, 2] :=
  ⟨by decide, by decide⟩

/-- C8: on segments `[("ab", 0), ("cd", 1)]` with `max_chunk_length = 4`,
`get_chunks` returns the chunks `["ab", "cd"]` with representative
timestamps `[0, 1]`. -/
theorem c8_example :
    get_chunks [⟨"ab", (0 : ℤ)⟩, ⟨"cd", 1⟩] 4 = (["ab", "cd"], [[0], [1]])
    ∧ headsOf (get_chunks [⟨"ab", (0 : ℤ)⟩, ⟨"cd", 1⟩] 4).2 = some [0, 1] :=
  ⟨by decide, by decide⟩

/-! ## C9: an oversized first segment yields an empty first chunk with an
empty timestamp group, and the endpoint errors -/

/-- C9: whenever the first segment's text has length at least
`max_chunk_length`, the first loop iteration flushes the initial empty
accumulator: the first returned chunk is `""` with an empty timestamp group,
and the endpoint's `timestamps[0]` extraction fails (an `IndexError`,
modelled as `none`) for the default `max_chunk_length = 500`. -/
theorem c9_oversized_first_segment (seg : Segment α)
    (rest : List (Segment α)) (m : ℤ) (h : m ≤ (seg.text.length : ℤ)) :
    (get_chunks (seg :: rest) m).1.head? = some ""
    ∧ (get_chunks (seg :: rest) m).2.head? = some ([] : List α)
    ∧ (m = 500 → ∀ model : String → List ℚ,
        api_get_video_embeddings (seg :: rest) model = none) := by
  have hstep : chunkStep m initState seg
      = ⟨[""], [[]], seg.text, [seg.start]⟩ := by
    unfold chunkStep initState
    rw [if_neg]
    · simp [pyStrip, stripL]
    · simp only [String.length_empty]
      push_cast
      omega
  have h1 : chunkLoop m (seg :: rest) initState
      = chunkLoop m rest ⟨[""], [[]], seg.text, [seg.start]⟩ := by
    show chunkLoop m rest (chunkStep m initState seg) = _
    rw [hstep]
  obtain ⟨v, w, hv, hw⟩ :=
    chunkLoop_extend m rest ⟨[""], [[]], seg.text, [seg.start]⟩
  have hheads : (get_chunks (seg :: rest) m).1.head? = some ""
      ∧ (get_chunks (seg :: rest) m).2.head? = some ([] : List α) := by
    simp only [get_chunks, h1]
    by_cases hc :
        (chunkLoop m rest
          (⟨[""], [[]], seg.text, [seg.start]⟩ : ChunkState α)).current_chunk
          = "" <;>
      simp [hc, hv, hw]
  refine ⟨hheads.1, hheads.2, ?_⟩
  intro hm model
  subst hm
  have h2 := hheads.2
  cases hgr : (get_chunks (seg :: rest) (500 : ℤ)).2 with
  | nil => rw [hgr] at h2; simp at h2
  | cons g t =>
    rw [hgr] at h2
    simp only [List.head?_cons, Option.some.injEq] at h2
    subst h2
    simp [api_get_video_embeddings, hgr, headsOf]

/-- A 500-character text, exceeding the endpoint's default chunk length. -/
def longText : String := ⟨List.replicate 500 'a'⟩

/-- C9 (witness): the concrete one-segment transcript whose text is 500
characters long satisfies the hypothesis, returns `""` with an empty group
first, and makes the endpoint fail. -/
theorem c9_witness :
    ((500 : ℤ) ≤ (longText.length : ℤ))
    ∧ ((get_chunks [⟨longText, (0 : ℤ)⟩] 500).1.head? = some ""
      ∧ (get_chunks [⟨longText, (0 : ℤ)⟩] 500).2.head? = some ([] : List ℤ)
      ∧ ((500 : ℤ) = 500 → ∀ model : String → List ℚ,
          api_get_video_embeddings [⟨longText, (0 : ℤ)⟩] model = none)) :=
  ⟨by show (500 : ℤ) ≤ ((List.replicate 500 'a').length : ℤ)
      rw [List.length_replicate]; norm_num,
   c9_oversized_first_segment ⟨longText, 0⟩ [] 500
     (by show (500 : ℤ) ≤ ((List.replicate 500 'a').length : ℤ)
         rw [List.length_replicate]; norm_num)⟩

/-! ## C10: a trailing empty-text segment can drop its timestamp -/

/-- C10 (counterexample): the claim as stated is false — in
`get_chunks [("abcd", 5), ("", 5)]` with `max_chunk_length = 3` the last
segment has empty text and arrives with the accumulator holding 4 ≥ 3
characters, yet its start time 5 does appear in a returned timestamp group
(an earlier segment has the same start value). -/
theorem c10_counterexample :
    (⟨"", (5 : ℤ)⟩ : Segment ℤ).text = ""
    ∧ (3 : ℤ) ≤
        ((chunkLoop 3 [⟨"abcd", (5 : ℤ)⟩] initState).current_chunk.length : ℤ)
    ∧ ∃ g ∈ (get_chunks [⟨"abcd", (5 : ℤ)⟩, ⟨"", 5⟩] 3).2, (5 : ℤ) ∈ g := by
  refine ⟨rfl, by decide, ?_⟩
  exact ⟨[5], by decide, by decide⟩

/-- C10 (amended): when the last segment has empty text and arrives while the
accumulator already holds at least `max_chunk_length` characters, the new
accumulator is the empty string, the post-loop flush is skipped, the
returned groups hold exactly the earlier segments' start times (one fewer
timestamp than there are segments, so their concatenation is not the full
start-time list), and — provided the last start time differs from every
earlier one — it appears in no returned group. -/
theorem c10_trailing_empty_drop (init : List (Segment α)) (lastSeg : Segment α)
    (m : ℤ) (hempty : lastSeg.text = "")
    (hacc : m ≤ ((chunkLoop m init initState).current_chunk.length : ℤ)) :
    (chunkLoop m (init ++ [lastSeg]) initState).current_chunk = ""
    ∧ get_chunks (init ++ [lastSeg]) m
        = ((chunkLoop m (init ++ [lastSeg]) initState).chunks,
           (chunkLoop m (init ++ [lastSeg]) initState).chunk_timestamps)
    ∧ (get_chunks (init ++ [lastSeg]) m).2.flatten = init.map Segment.start
    ∧ (get_chunks (init ++ [lastSeg]) m).2.flatten
        ≠ (init ++ [lastSeg]).map Segment.start
    ∧ (lastSeg.start ∉ init.map Segment.start →
        ∀ g ∈ (get_chunks (init ++ [lastSeg]) m).2, lastSeg.start ∉ g) := by
  have hsplit : chunkLoop m (init ++ [lastSeg]) initState
      = chunkStep m (chunkLoop m init initState) lastSeg := by
    unfold chunkLoop
    rw [List.foldl_append]
    rfl
  set st := chunkLoop m init initState with hst
  have hstep : chunkStep m st lastSeg
      = ⟨st.chunks ++ [pyStrip st.current_chunk],
         st.chunk_timestamps ++ [st.current_timestamps], "",
         [lastSeg.start]⟩ := by
    unfold chunkStep
    rw [if_neg, hempty]
    rw [hempty]
    simp only [String.length_empty]
    push_cast
    omega
  have hcur : (chunkLoop m (init ++ [lastSeg]) initState).current_chunk = "" := by
    rw [hsplit, hstep]
  have hres : get_chunks (init ++ [lastSeg]) m
      = ((chunkLoop m (init ++ [lastSeg]) initState).chunks,
         (chunkLoop m (init ++ [lastSeg]) initState).chunk_timestamps) := by
    simp [get_chunks, hcur]
  have hjoin := chunkLoop_join m (init ++ [lastSeg]) (initState : ChunkState α)
  rw [hsplit, hstep] at hjoin
  simp only [initState, List.flatten_nil, List.nil_append, List.map_append,
    List.map_cons, List.map_nil] at hjoin
  -- hjoin : (st.chunk_timestamps ++ [st.current_timestamps]).flatten
  --           ++ [lastSeg.start] = init.map Segment.start ++ [lastSeg.start]
  have hflat : (get_chunks (init ++ [lastSeg]) m).2.flatten
      = init.map Segment.start := by
    rw [hres]
    simp only [hsplit, hstep]
    exact List.append_cancel_right hjoin
  refine ⟨hcur, hres, hflat, ?_, ?_⟩
  · intro heq
    have := congrArg List.length heq
    rw [hflat] at heq
    have hlen := congrArg List.length heq
    simp at hlen
  · intro hnot g hg hmem
    exact hnot (hflat ▸ List.mem_flatten.2 ⟨g, hg, hmem⟩)

/-- The concrete inputs of the C10 witness. -/
def c10init : List (Segment ℤ) := [⟨"abcd", 0⟩]

def c10last : Segment ℤ := ⟨"", 1⟩

/-- C10 (witness): a concrete instance of the amended theorem, with
`init = [("abcd", 0)]`, last segment `("", 1)` and `max_chunk_length = 3`. -/
theorem c10_witness :
    (c10last.text = ""
     ∧ (3 : ℤ) ≤ ((chunkLoop 3 c10init initState).current_chunk.length : ℤ))
    ∧ ((chunkLoop 3 (c10init ++ [c10last]) initState).current_chunk = ""
      ∧ get_chunks (c10init ++ [c10last]) 3
          = ((chunkLoop 3 (c10init ++ [c10last]) initState).chunks,
             (chunkLoop 3 (c10init ++ [c10last]) initState).chunk_timestamps)
      ∧ (get_chunks (c10init ++ [c10last]) 3).2.flatten
          = c10init.map Segment.start
      ∧ (get_chunks (c10init ++ [c10last]) 3).2.flatten
          ≠ (c10init ++ [c10last]).map Segment.start
      ∧ (c10last.start ∉ c10init.map Segment.start →
          ∀ g ∈ (get_chunks (c10init ++ [c10last]) 3).2, c10last.start ∉ g)) :=
  ⟨⟨rfl, by decide⟩, c10_trailing_empty_drop c10init c10last 3 rfl (by decide)⟩

/-! ## C7: shape of the embedder output -/

/-- C7: for a model producing `dimensions`-length vectors,
`generate_embeddings` returns exactly one vector per input string, in input
order, each with exactly `dimensions = 1024` components, and the empty input
yields the empty result. -/
theorem c7_embeddings_shape (texts : List String) (model : String → List ℚ)
    (hm : goodModel model) :
    (generate_embeddings texts model).length = texts.length
    ∧ (∀ i : ℕ, (generate_embeddings texts model)[i]? = (texts[i]?).map model)
    ∧ (∀ v ∈ generate_embeddings texts model, v.length = dimensions)
    ∧ dimensions = 1024
    ∧ generate_embeddings [] model = [] := by
  refine ⟨by simp [generate_embeddings, encode], ?_, ?_, rfl, rfl⟩
  · intro i
    simp [generate_embeddings, encode, List.getElem?_map]
  · intro v hv
    simp only [generate_embeddings, encode, List.mem_map] at hv
    obtain ⟨s, _, rfl⟩ := hv
    exact hm s

/-- C7 (witness): the constant model returning a `dimensions`-length zero
vector instantiates the theorem on the one-element text list `["a"]`. -/
theorem c7_witness :
    goodModel (fun _ => List.replicate dimensions 0)
    ∧ ((generate_embeddings ["a"] (fun _ => List.replicate dimensions 0)).length
        = (["a"] : List String).length
      ∧ (∀ i : ℕ, (generate_embeddings ["a"]
            (fun _ => List.replicate dimensions 0))[i]?
          = ((["a"] : List String)[i]?).map (fun _ => List.replicate dimensions 0))
      ∧ (∀ v ∈ generate_embeddings ["a"] (fun _ => List.replicate dimensions 0),
          v.length = dimensions)
      ∧ dimensions = 1024
      ∧ generate_embeddings [] (fun _ => List.replicate dimensions 0) = []) :=
  ⟨fun _ => List.length_replicate dimensions 0,
   c7_embeddings_shape ["a"] (fun _ => List.replicate dimensions 0)
     (fun _ => List.length_replicate dimensions 0)⟩

/-! ## C3: representative timestamps are first folded start times -/

/-- C3: every returned timestamp group is exactly the list of start times of
the segments folded into the corresponding chunk, so the representative
timestamp `groups[i][0]` is the start time of the first segment folded into
chunk `i` (both sides being absent exactly when no segment was folded in). -/
theorem c3_representative_timestamps (segs : List (Segment α)) (m : ℤ) :
    (get_chunks segs m).2 = (chunkSegGroups segs m).map (List.map Segment.start)
    ∧ ∀ i : ℕ, ((get_chunks segs m).2[i]?.bind List.head?)
        = ((chunkSegGroups segs m)[i]?.bind List.head?).map Segment.start := by
  refine ⟨get_chunks_snd_tag segs m, ?_⟩
  intro i
  rw [get_chunks_snd_tag segs m, List.getElem?_map]
  cases (chunkSegGroups segs m)[i]? with
  | none => rfl
  | some g => cases g with
    | nil => rfl
    | cons a t => rfl

/-! ## C6: pipeline lengths and positional correspondence -/

/-- C6: whenever the video-embeddings endpoint completes, the numbers of
chunks, timestamp groups, embeddings and representative timestamps agree;
embedding `i` is the model vector of chunk `i`; timestamp group `i` holds
the start times of the segments folded into chunk `i`; and on the empty
transcript both chunker outputs are empty lists. -/
theorem c6_pipeline_invariant (transcript : List (Segment α))
    (model : String → List ℚ) (out : List String × List (List ℚ) × List α)
    (h : api_get_video_embeddings transcript model = some out) :
    out.1 = (get_chunks transcript 500).1
    ∧ out.1.length = (get_chunks transcript (500 : ℤ)).2.length
    ∧ out.2.1.length = out.1.length
    ∧ out.2.2.length = out.1.length
    ∧ (∀ i : ℕ, out.2.1[i]? = (out.1[i]?).map model)
    ∧ (∀ i : ℕ, (get_chunks transcript (500 : ℤ)).2[i]?
        = ((chunkSegGroups transcript 500)[i]?).map (List.map Segment.start))
    ∧ get_chunks ([] : List (Segment α)) (500 : ℤ) = ([], []) := by
  simp only [api_get_video_embeddings] at h
  cases hh : headsOf (get_chunks transcript (500 : ℤ)).2 with
  | none => rw [hh] at h; simp at h
  | some reps =>
    rw [hh] at h
    simp only [Option.some.injEq] at h
    subst h
    refine ⟨rfl, get_chunks_lengths transcript 500, ?_, ?_, ?_, ?_, rfl⟩
    · simp [generate_embeddings, encode]
    · rw [headsOf_length hh]
      exact (get_chunks_lengths transcript 500).symm
    · intro i
      simp [generate_embeddings, encode, List.getElem?_map]
    · intro i
      rw [get_chunks_snd_tag transcript 500, List.getElem?_map]

/-- C6 (witness): a concrete completed run on the one-segment transcript
`[("hi", 0)]` with a constant model. -/
theorem c6_witness :
    api_get_video_embeddings [(⟨"hi", 0⟩ : Segment ℤ)] (fun _ => [(1 : ℚ)])
        = some (["hi"], [[1]], [0])
    ∧ ((["hi"], [[(1 : ℚ)]], [(0 : ℤ)]).1
          = (get_chunks [(⟨"hi", 0⟩ : Segment ℤ)] 500).1
      ∧ (["hi"], [[(1 : ℚ)]], [(0 : ℤ)]).1.length
          = (get_chunks [(⟨"hi", 0⟩ : Segment ℤ)] (500 : ℤ)).2.length
      ∧ (["hi"], [[(1 : ℚ)]], [(0 : ℤ)]).2.1.length
          = (["hi"], [[(1 : ℚ)]], [(0 : ℤ)]).1.length
      ∧ (["hi"], [[(1 : ℚ)]], [(0 : ℤ)]).2.2.length
          = (["hi"], [[(1 : ℚ)]], [(0 : ℤ)]).1.length
      ∧ (∀ i : ℕ, (["hi"], [[(1 : ℚ)]], [(0 : ℤ)]).2.1[i]?
          = ((["hi"], [[(1 : ℚ)]], [(0 : ℤ)]).1[i]?).map (fun _ => [(1 : ℚ)]))
      ∧ (∀ i : ℕ, (get_chunks [(⟨"hi", 0⟩ : Segment ℤ)] (500 : ℤ)).2[i]?
          = ((chunkSegGroups [(⟨"hi", 0⟩ : Segment ℤ)] 500)[i]?).map
              (List.map Segment.start))
      ∧ get_chunks ([] : List (Segment ℤ)) (500 : ℤ) = ([], [])) :=
  ⟨by decide,
   c6_pipeline_invariant [(⟨"hi", 0⟩ : Segment ℤ)] (fun _ => [(1 : ℚ)])
     (["hi"], [[1]], [0]) (by decide)⟩

/-! ## C2: the length bound and its single-oversized-segment exception -/

lemma length_dropWhile_le_self (p : Char → Bool) (l : List Char) :
    (l.dropWhile p).length ≤ l.length := by
  induction l with
  | nil => simp
  | cons a t ih =>
    by_cases h : p a <;> simp [List.dropWhile_cons, h]
    omega

lemma stripL_length_le (l : List Char) : (stripL l).length ≤ l.length := by
  unfold stripL
  calc ((l.dropWhile isWS).reverse.dropWhile isWS).reverse.length
      = ((l.dropWhile isWS).reverse.dropWhile isWS).length := by
        rw [List.length_reverse]
    _ ≤ (l.dropWhile isWS).reverse.length := length_dropWhile_le_self _ _
    _ = (l.dropWhile isWS).length := by rw [List.length_reverse]
    _ ≤ l.length := length_dropWhile_le_self _ _

lemma pyStrip_length_le (s : String) : (pyStrip s).length ≤ s.length :=
  stripL_length_le s.data

/-- The accumulator either fits within the bound or is verbatim the text of
a single pending segment of `L`. -/
def curOk (m : ℤ) (L : List (Segment γ)) (st : ChunkState γ) : Prop :=
  ((st.current_chunk.length : ℤ) ≤ m) ∨
    ∃ p ∈ L, st.current_timestamps = [p.start] ∧ st.current_chunk = p.text

/-- An emitted chunk either fits within the bound or is the stripped text of
a single oversized segment of `L`, its group holding just that segment's
start. -/
def emitOk (m : ℤ) (L : List (Segment γ)) (c : String) (g : List γ) : Prop :=
  ((c.length : ℤ) ≤ m) ∨
    ∃ p ∈ L, g = [p.start] ∧ c = pyStrip p.text ∧ m < (p.text.length : ℤ)

/-- Flushing a state whose accumulator satisfies `curOk` emits a chunk
satisfying `emitOk`. -/
lemma flushOk {m : ℤ} {L : List (Segment γ)} {st : ChunkState γ}
    (h : curOk m L st) :
    emitOk m L (pyStrip st.current_chunk) st.current_timestamps := by
  rcases h with h | ⟨p, hp, h1, h2⟩
  · left
    calc ((pyStrip st.current_chunk).length : ℤ)
        ≤ (st.current_chunk.length : ℤ) := by
          exact_mod_cast pyStrip_length_le st.current_chunk
      _ ≤ m := h
  · by_cases hlen : ((pyStrip st.current_chunk).length : ℤ) ≤ m
    · exact Or.inl hlen
    · push_neg at hlen
      refine Or.inr ⟨p, hp, h1, by rw [h2], ?_⟩
      calc m < ((pyStrip st.current_chunk).length : ℤ) := hlen
        _ ≤ (st.current_chunk.length : ℤ) := by
            exact_mod_cast pyStrip_length_le st.current_chunk
        _ = (p.text.length : ℤ) := by rw [h2]

/-- The loop invariant for C2. -/
def stOk (m : ℤ) (L : List (Segment γ)) (st : ChunkState γ) : Prop :=
  st.chunks.length = st.chunk_timestamps.length
  ∧ curOk m L st
  ∧ ∀ pr ∈ st.chunks.zip st.chunk_timestamps, emitOk m L pr.1 pr.2

lemma chunkStep_stOk {m : ℤ} {L : List (Segment γ)} {st : ChunkState γ}
    {seg : Segment γ} (hseg : seg ∈ L) (h : stOk m L st) :
    stOk m L (chunkStep m st seg) := by
  obtain ⟨hlen, hcur, hemit⟩ := h
  unfold chunkStep
  split
  · rename_i hcond
    refine ⟨hlen, Or.inl ?_, hemit⟩
    have hl : (st.current_chunk ++ " " ++ seg.text).length
        = st.current_chunk.length + 1 + seg.text.length := by
      simp [String.length_append]
      rfl
    show ((st.current_chunk ++ " " ++ seg.text).length : ℤ) ≤ m
    rw [hl]
    push_cast
    omega
  · refine ⟨by simp [hlen], Or.inr ⟨seg, hseg, rfl, rfl⟩, ?_⟩
    intro pr hpr
    rw [List.zip_append hlen] at hpr
    rcases List.mem_append.1 hpr with hpr | hpr
    · exact hemit pr hpr
    · simp only [List.zip_cons_cons, List.zip_nil_right, List.mem_singleton]
        at hpr
      subst hpr
      exact flushOk hcur

lemma chunkLoop_stOk {m : ℤ} {L : List (Segment γ)} :
    ∀ (segs : List (Segment γ)) (st : ChunkState γ),
      (∀ s ∈ segs, s ∈ L) → stOk m L st → stOk m L (chunkLoop m segs st) := by
  intro segs
  induction segs with
  | nil => intro st _ h; exact h
  | cons a l ih =>
    intro st hsub h
    exact ih (chunkStep m st a) (fun s hs => hsub s (List.mem_cons_of_mem a hs))
      (chunkStep_stOk (hsub a (List.mem_cons_self a l)) h)

lemma emitOk_tag {segs : List (Segment α)} {m : ℤ} {c : String}
    {g : List (Segment α)} (h : emitOk m (segs.map tagStart) c g) :
    ((c.length : ℤ) ≤ m) ∨
      ∃ s ∈ segs, g = [s] ∧ c = pyStrip s.text ∧ m < (s.text.length : ℤ) := by
  rcases h with h | ⟨p, hp, h1, h2, h3⟩
  · exact Or.inl h
  · obtain ⟨s, hs, rfl⟩ := List.mem_map.1 hp
    exact Or.inr ⟨s, hs, h1, h2, h3⟩

/-- C2: for a positive bound, every returned chunk either fits within
`max_chunk_length` or derives from exactly one segment — its segment group
is a singleton `[s]`, its text is `s.text` stripped — whose text alone
exceeds the bound. -/
theorem c2_chunk_length_bound (segs : List (Segment α)) (m : ℤ)
    (hm : 0 < m) :
    ∀ pr ∈ (get_chunks segs m).1.zip (chunkSegGroups segs m),
      ((pr.1.length : ℤ) ≤ m) ∨
        ∃ s ∈ segs, pr.2 = [s] ∧ pr.1 = pyStrip s.text
          ∧ m < (s.text.length : ℤ) := by
  have hinit : stOk m (segs.map tagStart)
      (initState : ChunkState (Segment α)) := by
    refine ⟨rfl, Or.inl ?_, by simp [initState]⟩
    simp only [initState, String.length_empty]
    omega
  have hfin := chunkLoop_stOk (segs.map tagStart) initState
    (fun s hs => hs) hinit
  obtain ⟨hlen, hcur, hemit⟩ := hfin
  intro pr hpr
  rw [← get_chunks_fst_tag segs m] at hpr
  have hgroups : chunkSegGroups segs m
      = (get_chunks (segs.map tagStart) m).2 := rfl
  rw [hgroups] at hpr
  by_cases hc : (chunkLoop m (segs.map tagStart) initState).current_chunk = ""
  · rw [show get_chunks (segs.map tagStart) m
        = ((chunkLoop m (segs.map tagStart) initState).chunks,
           (chunkLoop m (segs.map tagStart) initState).chunk_timestamps) from
      by simp [get_chunks, hc]] at hpr
    exact emitOk_tag (hemit pr hpr)
  · rw [show get_chunks (segs.map tagStart) m
        = ((chunkLoop m (segs.map tagStart) initState).chunks
             ++ [pyStrip (chunkLoop m (segs.map tagStart)
                  initState).current_chunk],
           (chunkLoop m (segs.map tagStart) initState).chunk_timestamps
             ++ [(chunkLoop m (segs.map tagStart)
                  initState).current_timestamps]) from
      by simp [get_chunks, hc]] at hpr
    rw [List.zip_append hlen] at hpr
    rcases List.mem_append.1 hpr with hpr | hpr
    · exact emitOk_tag (hemit pr hpr)
    · simp only [List.zip_cons_cons, List.zip_nil_right, List.mem_singleton]
        at hpr
      subst hpr
      exact emitOk_tag (flushOk hcur)

/-- C2 (witness): on the single oversized segment `("abcdef", 0)` with
`max_chunk_length = 3` the theorem applies; the run returns the bogus empty
chunk and the oversized chunk `"abcdef"`. -/
theorem c2_witness :
    (0 : ℤ) < 3
    ∧ ∀ pr ∈ (get_chunks [(⟨"abcdef", 0⟩ : Segment ℤ)] 3).1.zip
        (chunkSegGroups [(⟨"abcdef", 0⟩ : Segment ℤ)] 3),
      ((pr.1.length : ℤ) ≤ 3) ∨
        ∃ s ∈ [(⟨"abcdef", 0⟩ : Segment ℤ)], pr.2 = [s] ∧ pr.1 = pyStrip s.text
          ∧ 3 < (s.text.length : ℤ) :=
  ⟨by norm_num,
   c2_chunk_length_bound [(⟨"abcdef", 0⟩ : Segment ℤ)] 3 (by norm_num)⟩

/-! ## C5: whitespace-normalized round trip -/

/-- One `foldr` step of splitting a character list on whitespace, keeping
empty runs. -/
def wsStep (c : Char) (acc : List (List Char)) : List (List Char) :=
  if isWS c then [] :: acc
  else
    match acc with
    | [] => [[c]]
    | w :: ws => (c :: w) :: ws

/-- Split on whitespace, keeping (possibly empty) runs between separators. -/
def wsSplit (l : List Char) : List (List Char) := l.foldr wsStep [[]]

/-- The whitespace-separated words of a character list. -/
def wordsL (l : List Char) : List (List Char) :=
  (wsSplit l).filter (fun w => !w.isEmpty)

lemma wsSplit_ne_nil (l : List Char) : wsSplit l ≠ [] := by
  induction l with
  | nil => simp [wsSplit]
  | cons c t ih =>
    show wsStep c (wsSplit t) ≠ []
    unfold wsStep
    split
    · simp
    · cases wsSplit t <;> simp

lemma foldr_wsStep_cons (a : List Char) (X : List (List Char)) :
    a.foldr wsStep ([] :: X) = wsSplit a ++ X := by
  induction a with
  | nil => rfl
  | cons c a' ih =>
    show wsStep c (a'.foldr wsStep ([] :: X)) = wsSplit (c :: a') ++ X
    rw [ih]
    have hsp := wsSplit_ne_nil a'
    cases hw : wsSplit a' with
    | nil => exact absurd hw hsp
    | cons w ws =>
      show wsStep c (w :: ws ++ X) = wsStep c (wsSplit a') ++ X
      rw [hw]
      by_cases hc : isWS c <;> simp [wsStep, hc]

lemma wsSplit_append_sp (a : List Char) (c : Char) (hc : isWS c = true)
    (b : List Char) : wsSplit (a ++ c :: b) = wsSplit a ++ wsSplit b := by
  show (a ++ c :: b).foldr wsStep [[]] = _
  rw [List.foldr_append]
  have h1 : (c :: b).foldr wsStep [[]] = [] :: wsSplit b := by
    show wsStep c (wsSplit b) = [] :: wsSplit b
    simp [wsStep, hc]
  rw [h1, foldr_wsStep_cons]

/-- The central splitting law: a whitespace character splits the word list. -/
lemma wordsL_append_sp (a : List Char) (c : Char) (hc : isWS c = true)
    (b : List Char) : wordsL (a ++ c :: b) = wordsL a ++ wordsL b := by
  unfold wordsL
  rw [wsSplit_append_sp a c hc b, List.filter_append]

lemma wordsL_nil : wordsL [] = [] := rfl

lemma wordsL_ws_cons (c : Char) (hc : isWS c = true) (l : List Char) :
    wordsL (c :: l) = wordsL l := by
  unfold wordsL
  show ((wsStep c (wsSplit l)).filter fun w => !w.isEmpty) = _
  simp [wsStep, hc]

lemma wordsL_all_ws (w : List Char) (hw : ∀ c ∈ w, isWS c = true) :
    wordsL w = [] := by
  induction w with
  | nil => rfl
  | cons c t ih =>
    rw [wordsL_ws_cons c (hw c (List.mem_cons_self c t)) t]
    exact ih fun d hd => hw d (List.mem_cons_of_mem c hd)

lemma wordsL_append_all_ws (x w : List Char)
    (hw : ∀ c ∈ w, isWS c = true) : wordsL (x ++ w) = wordsL x := by
  induction w generalizing x with
  | nil => rw [List.append_nil]
  | cons c t ih =>
    rw [wordsL_append_sp x c (hw c (List.mem_cons_self c t)) t,
      wordsL_all_ws t fun d hd => hw d (List.mem_cons_of_mem c hd),
      List.append_nil]

lemma wordsL_dropWhile (l : List Char) :
    wordsL (l.dropWhile isWS) = wordsL l := by
  induction l with
  | nil => rfl
  | cons c t ih =>
    by_cases hc : isWS c
    · rw [List.dropWhile_cons_of_pos hc, ih, wordsL_ws_cons c hc t]
    · rw [List.dropWhile_cons_of_neg hc]

/-- Stripping does not change the words. -/
lemma wordsL_stripL (l : List Char) : wordsL (stripL l) = wordsL l := by
  unfold stripL
  set d := l.dropWhile isWS with hdd
  have hd : (d.reverse.dropWhile isWS).reverse
        ++ (d.reverse.takeWhile isWS).reverse = d := by
    rw [← List.reverse_append, List.takeWhile_append_dropWhile,
      List.reverse_reverse]
  calc wordsL (d.reverse.dropWhile isWS).reverse
      = wordsL ((d.reverse.dropWhile isWS).reverse
          ++ (d.reverse.takeWhile isWS).reverse) := by
        rw [wordsL_append_all_ws]
        intro c hc
        exact List.mem_takeWhile_imp (List.mem_reverse.1 hc)
    _ = wordsL d := by rw [hd]
    _ = wordsL l := wordsL_dropWhile l

/-- Join character-list words with single spaces. -/
def joinSpaceL : List (List Char) → List Char
  | [] => []
  | [w] => w
  | w :: x :: ws => w ++ ' ' :: joinSpaceL (x :: ws)

/-- Join strings with single spaces (`' '.join` on the chunk texts). -/
def joinSpace : List String → String
  | [] => ""
  | [s] => s
  | s :: t :: ss => s ++ " " ++ joinSpace (t :: ss)

/-- Whitespace normalization: the words of a string joined by single
spaces. -/
def wsNormalize (s : String) : String := ⟨joinSpaceL (wordsL s.data)⟩

lemma wordsL_joinSpace (ss : List String) :
    wordsL (joinSpace ss).data = (ss.map fun s => wordsL s.data).flatten := by
  induction ss with
  | nil => rfl
  | cons s t ih =>
    cases t with
    | nil => simp [joinSpace, wordsL_nil]
    | cons u us =>
      show wordsL ((s ++ " " ++ joinSpace (u :: us)).data) = _
      rw [String.data_append, String.data_append]
      have : (" " : String).data = [' '] := rfl
      rw [this, List.append_assoc]
      show wordsL (s.data ++ ' ' :: (joinSpace (u :: us)).data) = _
      rw [wordsL_append_sp s.data ' ' rfl _, ih]
      simp

/-- The words flushed and pending in a chunker state. -/
def stateWords (st : ChunkState α) : List (List Char) :=
  (st.chunks.map fun c => wordsL c.data).flatten
    ++ wordsL st.current_chunk.data

lemma pyStrip_data (s : String) : (pyStrip s).data = stripL s.data := rfl

lemma chunkStep_words (m : ℤ) (st : ChunkState α) (seg : Segment α) :
    stateWords (chunkStep m st seg) = stateWords st ++ wordsL seg.text.data := by
  unfold chunkStep
  split
  · unfold stateWords
    dsimp only
    rw [String.data_append, String.data_append]
    have : (" " : String).data = [' '] := rfl
    rw [this, List.append_assoc]
    show _ ++ wordsL (st.current_chunk.data ++ ' ' :: seg.text.data) = _
    rw [wordsL_append_sp st.current_chunk.data ' ' rfl _, List.append_assoc]
  · unfold stateWords
    dsimp only
    rw [List.map_append, List.flatten_append]
    simp only [List.map_cons, List.map_nil, List.flatten_cons,
      List.flatten_nil, List.append_nil, pyStrip_data, wordsL_stripL]

lemma chunkLoop_words (m : ℤ) (segs : List (Segment α)) (st : ChunkState α) :
    stateWords (chunkLoop m segs st)
      = stateWords st ++ (segs.map fun s => wordsL s.text.data).flatten := by
  induction segs generalizing st with
  | nil => simp [chunkLoop, stateWords]
  | cons a l ih =>
    rw [show chunkLoop m (a :: l) st = chunkLoop m l (chunkStep m st a) from rfl,
      ih (chunkStep m st a), chunkStep_words]
    simp

/-- C5: joining all returned chunk texts with single spaces equals, after
whitespace normalization, the trimmed concatenation of all original segment
texts joined by single spaces. -/
theorem c5_roundtrip (segs : List (Segment α)) (m : ℤ) :
    wsNormalize (joinSpace (get_chunks segs m).1)
      = wsNormalize (pyStrip (joinSpace (segs.map Segment.text))) := by
  have hloop := chunkLoop_words m segs initState
  have hinit : stateWords (initState : ChunkState α) = [] := rfl
  rw [hinit, List.nil_append] at hloop
  have hL : wordsL (joinSpace (get_chunks segs m).1).data
      = (segs.map fun s => wordsL s.text.data).flatten := by
    rw [wordsL_joinSpace]
    by_cases hc : (chunkLoop m segs initState).current_chunk = ""
    · rw [show (get_chunks segs m).1 = (chunkLoop m segs initState).chunks from
        by simp [get_chunks, hc]]
      rw [← hloop]
      unfold stateWords
      rw [hc, show (("" : String).data) = ([] : List Char) from rfl,
        wordsL_nil, List.append_nil]
    · rw [show (get_chunks segs m).1 = (chunkLoop m segs initState).chunks
          ++ [pyStrip (chunkLoop m segs initState).current_chunk] from
        by simp [get_chunks, hc]]
      rw [← hloop]
      unfold stateWords
      rw [List.map_append, List.flatten_append]
      simp [pyStrip_data, wordsL_stripL]
  have hR : wordsL (pyStrip (joinSpace (segs.map Segment.text))).data
      = (segs.map fun s => wordsL s.text.data).flatten := by
    rw [pyStrip_data, wordsL_stripL, wordsL_joinSpace, List.map_map]
    rfl
  unfold wsNormalize
  rw [hL, hR]

/-! ## C4: re-chunking produced chunks is not always a no-op -/

/-- C4 (counterexample): `get_chunks [("a ", 0), ("b", 1)]` with
`max_chunk_length = 4` produces the chunks `["a", "b"]`, each fitting within
4; re-running `get_chunks` on those chunks as single segments with their
representative timestamps merges them into `["a b"]` — not a no-op. -/
theorem c4_counterexample :
    get_chunks [⟨"a ", (0 : ℤ)⟩, ⟨"b", 1⟩] 4 = (["a", "b"], [[0], [1]])
    ∧ (∀ chunkText ∈ ["a", "b"], ((chunkText : String).length : ℤ) ≤ 4)
    ∧ get_chunks [⟨"a", (0 : ℤ)⟩, ⟨"b", 1⟩] 4 ≠ (["a", "b"], [[0], [1]]) :=
  ⟨by decide, by decide, by decide⟩

lemma pyStrip_space_append (s : String) : pyStrip (" " ++ s) = pyStrip s := by
  rfl

/-- Folding segments that pairwise cannot merge (each consecutive text pair
overflows the bound) from a state whose accumulator holds the previous
segment's bare text: every segment is flushed as its own chunk with a
singleton timestamp group, the last one staying in the accumulator. -/
lemma steadyRun (m : ℤ) :
    ∀ (rest : List (Segment α)) (p : Segment α) (C : List String)
      (G : List (List α)),
      pyStrip p.text = p.text →
      (∀ s ∈ rest, pyStrip s.text = s.text) →
      List.Chain (fun a b => m < (a.text.length + b.text.length + 1 : ℤ))
        p rest →
      chunkLoop m rest ⟨C, G, p.text, [p.start]⟩
        = ⟨C ++ ((p :: rest).dropLast.map fun s => s.text),
           G ++ ((p :: rest).dropLast.map fun s => [s.start]),
           ((p :: rest).getLast (List.cons_ne_nil p rest)).text,
           [((p :: rest).getLast (List.cons_ne_nil p rest)).start]⟩ := by
  intro rest
  induction rest with
  | nil => intro p C G _ _ _; simp [chunkLoop]
  | cons q rest' ih =>
    intro p C G hp hrest hchain
    cases hchain with
    | cons hR hchain' =>
      have hstep : chunkStep m ⟨C, G, p.text, [p.start]⟩ q
          = ⟨C ++ [p.text], G ++ [[p.start]], q.text, [q.start]⟩ := by
        unfold chunkStep
        rw [if_neg]
        · rw [show (⟨C, G, p.text, [p.start]⟩ :
              ChunkState α).current_chunk = p.text from rfl, hp]
        · show ¬((p.text.length + q.text.length + 1 : ℤ) ≤ m)
          omega
      rw [show chunkLoop m (q :: rest') ⟨C, G, p.text, [p.start]⟩
            = chunkLoop m rest' (chunkStep m ⟨C, G, p.text, [p.start]⟩ q)
          from rfl, hstep,
        ih q (C ++ [p.text]) (G ++ [[p.start]])
          (hrest q (List.mem_cons_self q rest'))
          (fun s hs => hrest s (List.mem_cons_of_mem q hs)) hchain']
      have hdl : (p :: q :: rest').dropLast = p :: (q :: rest').dropLast := rfl
      have hgl : (p :: q :: rest').getLast (List.cons_ne_nil p (q :: rest'))
          = (q :: rest').getLast (List.cons_ne_nil q rest') :=
        List.getLast_cons (List.cons_ne_nil q rest')
      rw [hdl, hgl]
      simp

/-- C4 (amended): re-running `get_chunks` on a chunk list (each chunk as a
single segment carrying its representative timestamp) is a no-op — same
chunks, singleton timestamp groups — provided every chunk is nonempty and
already stripped, the first chunk fits strictly (`len + 1 ≤ max`), the first
two chunks cannot merge even with the extra seeded space
(`len c₁ + len c₂ + 2 > max`), and no later consecutive pair can merge
(`len cᵢ + len cᵢ₊₁ + 1 > max`). -/
theorem c4_rechunk_noop (c : Segment α) (cs : List (Segment α)) (m : ℤ)
    (hne : ∀ s ∈ c :: cs, s.text ≠ "")
    (hstrip : ∀ s ∈ c :: cs, pyStrip s.text = s.text)
    (hfit : (c.text.length : ℤ) + 1 ≤ m)
    (hsep : ∀ d, cs.head? = some d →
      m < (c.text.length + d.text.length + 2 : ℤ))
    (hchain : List.Chain'
      (fun a b => m < (a.text.length + b.text.length + 1 : ℤ)) cs) :
    get_chunks (c :: cs) m
      = ((c :: cs).map fun s => s.text,
         (c :: cs).map fun s => [s.start]) := by
  have hstep1 : chunkStep m initState c
      = ⟨[], [], " " ++ c.text, [c.start]⟩ := by
    unfold chunkStep initState
    rw [if_pos]
    · rfl
    · show ((("" : String).length + c.text.length + 1 : ℤ)) ≤ m
      rw [String.length_empty]
      push_cast
      omega
  have hloop1 : chunkLoop m (c :: cs) initState
      = chunkLoop m cs ⟨[], [], " " ++ c.text, [c.start]⟩ := by
    rw [show chunkLoop m (c :: cs) initState
        = chunkLoop m cs (chunkStep m initState c) from rfl, hstep1]
  have hlen1 : (" " ++ c.text).length = 1 + c.text.length := by
    rw [String.length_append]
    rfl
  cases cs with
  | nil =>
    rw [show get_chunks [c] m
        = (if (chunkLoop m [c] initState).current_chunk ≠ "" then
            ((chunkLoop m [c] initState).chunks
              ++ [pyStrip (chunkLoop m [c] initState).current_chunk],
             (chunkLoop m [c] initState).chunk_timestamps
              ++ [(chunkLoop m [c] initState).current_timestamps])
          else ((chunkLoop m [c] initState).chunks,
                (chunkLoop m [c] initState).chunk_timestamps)) from rfl]
    rw [show chunkLoop m [c] initState
        = ⟨[], [], " " ++ c.text, [c.start]⟩ from hloop1]
    rw [if_pos]
    · rw [show (⟨[], [], " " ++ c.text, [c.start]⟩ :
          ChunkState α).current_chunk = " " ++ c.text from rfl,
        pyStrip_space_append, hstrip c (List.mem_cons_self c [])]
      rfl
    · show " " ++ c.text ≠ ""
      intro hcontra
      have := congrArg String.length hcontra
      rw [hlen1, String.length_empty] at this
      omega
  | cons d cs' =>
    have hstep2 : chunkStep m ⟨[], [], " " ++ c.text, [c.start]⟩ d
        = ⟨[c.text], [[c.start]], d.text, [d.start]⟩ := by
      unfold chunkStep
      rw [if_neg]
      · rw [show (⟨[], [], " " ++ c.text, [c.start]⟩ :
            ChunkState α).current_chunk = " " ++ c.text from rfl,
          pyStrip_space_append, hstrip c (List.mem_cons_self c (d :: cs'))]
        rfl
      · show ¬(((" " ++ c.text).length + d.text.length + 1 : ℤ) ≤ m)
        rw [hlen1]
        have := hsep d rfl
        push_cast
        omega
    have hloop2 : chunkLoop m (c :: d :: cs') initState
        = chunkLoop m cs' ⟨[c.text], [[c.start]], d.text, [d.start]⟩ := by
      rw [hloop1,
        show chunkLoop m (d :: cs') ⟨[], [], " " ++ c.text, [c.start]⟩
          = chunkLoop m cs' (chunkStep m ⟨[], [], " " ++ c.text, [c.start]⟩ d)
        from rfl, hstep2]
    have hrun := steadyRun m cs' d [c.text] [[c.start]]
      (hstrip d (List.mem_cons_of_mem c (List.mem_cons_self d cs')))
      (fun s hs => hstrip s
        (List.mem_cons_of_mem c (List.mem_cons_of_mem d hs)))
      hchain
    set lastSeg := ((d :: cs').getLast (List.cons_ne_nil d cs')) with hlast
    have hfinal : chunkLoop m (c :: d :: cs') initState
        = ⟨[c.text] ++ ((d :: cs').dropLast.map fun s => s.text),
           [[c.start]] ++ ((d :: cs').dropLast.map fun s => [s.start]),
           lastSeg.text, [lastSeg.start]⟩ := by
      rw [hloop2, hrun]
    have hlastne : lastSeg.text ≠ "" :=
      hne lastSeg (List.mem_cons_of_mem c
        (List.getLast_mem (List.cons_ne_nil d cs')))
    rw [show get_chunks (c :: d :: cs') m
        = (if (chunkLoop m (c :: d :: cs') initState).current_chunk ≠ "" then
            ((chunkLoop m (c :: d :: cs') initState).chunks
              ++ [pyStrip (chunkLoop m (c :: d :: cs')
                    initState).current_chunk],
             (chunkLoop m (c :: d :: cs') initState).chunk_timestamps
              ++ [(chunkLoop m (c :: d :: cs')
                    initState).current_timestamps])
          else ((chunkLoop m (c :: d :: cs') initState).chunks,
                (chunkLoop m (c :: d :: cs') initState).chunk_timestamps))
        from rfl]
    have hsplitlist : (d :: cs').dropLast ++ [lastSeg] = d :: cs' :=
      List.dropLast_append_getLast (List.cons_ne_nil d cs')
    have h1 : (((d :: cs').dropLast.map fun s => s.text) ++ [lastSeg.text])
        = (d :: cs').map fun s => s.text := by
      rw [show [lastSeg.text] = [lastSeg].map fun s => s.text from rfl,
        ← List.map_append, hsplitlist]
    have h2 : (((d :: cs').dropLast.map fun s => [s.start]) ++ [[lastSeg.start]])
        = (d :: cs').map fun s => [s.start] := by
      rw [show [[lastSeg.start]] = [lastSeg].map fun s => [s.start] from rfl,
        ← List.map_append, hsplitlist]
    rw [hfinal]
    rw [if_pos]
    · rw [show (⟨[c.text] ++ ((d :: cs').dropLast.map fun s => s.text),
           [[c.start]] ++ ((d :: cs').dropLast.map fun s => [s.start]),
           lastSeg.text, [lastSeg.start]⟩ :
          ChunkState α).current_chunk = lastSeg.text from rfl,
        hstrip lastSeg (List.mem_cons_of_mem c
          (List.getLast_mem (List.cons_ne_nil d cs')))]
      simp only [List.map_cons]
      rw [List.append_assoc, h1, List.append_assoc, h2]
      rfl
    · exact hlastne

/-- The concrete chunk list of the C4 witness. -/
def c4segA : Segment ℤ := ⟨"ab", 0⟩

def c4segB : Segment ℤ := ⟨"cd", 1⟩

/-- C4 (witness): the chunk list `[("ab", 0), ("cd", 1)]` with
`max_chunk_length = 3` satisfies all side conditions and re-chunking it is a
no-op. -/
theorem c4_witness :
    ((∀ s ∈ c4segA :: [c4segB], s.text ≠ "")
     ∧ (∀ s ∈ c4segA :: [c4segB], pyStrip s.text = s.text)
     ∧ ((c4segA.text.length : ℤ) + 1 ≤ 3)
     ∧ (∀ d : Segment ℤ, ([c4segB]).head? = some d →
         (3 : ℤ) < (c4segA.text.length + d.text.length + 2 : ℤ))
     ∧ List.Chain'
         (fun a b => (3 : ℤ) < (a.text.length + b.text.length + 1 : ℤ))
         [c4segB])
    ∧ get_chunks (c4segA :: [c4segB]) 3
        = ((c4segA :: [c4segB]).map fun s => s.text,
           (c4segA :: [c4segB]).map fun s => [s.start]) := by
  have h1 : ∀ s ∈ c4segA :: [c4segB], s.text ≠ "" := by decide
  have h2 : ∀ s ∈ c4segA :: [c4segB], pyStrip s.text = s.text := by decide
  have h3 : (c4segA.text.length : ℤ) + 1 ≤ 3 := by decide
  have h4 : ∀ d : Segment ℤ, ([c4segB]).head? = some d →
      (3 : ℤ) < (c4segA.text.length + d.text.length + 2 : ℤ) := by
    intro d hd
    simp only [List.head?_cons, Option.some.injEq] at hd
    subst hd
    decide
  have h5 : List.Chain'
      (fun a b => (3 : ℤ) < (a.text.length + b.text.length + 1 : ℤ))
      [c4segB] := by simp
  exact ⟨⟨h1, h2, h3, h4, h5⟩, c4_rechunk_noop c4segA [c4segB] 3 h1 h2 h3 h4 h5⟩
